import Mathlib

/-!
Shallow embedding of SimpleGC (src/SimpleGC/gc.cpp), a conservative
mark-and-sweep garbage collector.

Modelling choices:
* Memory is byte-addressed: `Mem := Nat → Nat`, each address holding one
  byte.  The scanner reads 8-byte little-endian words (`readWord`), which
  is how `gc_collect_scan_block` dereferences `void **` pointers on x86-64.
* The allocation table (`std::unordered_map<void *, size_t> *allocations`)
  is an association list from base address to size (`HeapMap`); lookup
  finds the first matching key, matching map semantics on unique keys.
* The recursive `gc_collect_scan_block` is rendered as the fuel-indexed
  work-list function `scan`: when a word names an unmarked tracked block,
  the block is marked and its word addresses are pushed on the front of
  the work list, which visits words in exactly the depth-first order of
  the source's recursion.  Fuel decreases on every word processed, so the
  function is structurally recursive and kernel-computable; `scan_isSome`
  shows the fuel used by `markPhase` always suffices.
* The underlying allocator (`calloc`) is an oracle: each call site of
  `internal_alloc` receives the `Option Nat` outcome (`none` = calloc
  returned NULL, `some p` = it returned fresh address `p`).  A successful
  calloc zero-fills the returned block, modelled by `memset _ _ 0 _`.
* Platform state (register snapshot buffer, in-use stack extent, data
  segment) enters `gc_collect` as a list of `(start, length)` root
  regions whose contents live in `mem`.
-/

namespace SimpleGC

/-- One byte per address. -/
abbrev Mem := Nat → Nat

/-- The `heapmap` type of gc.cpp (`std::unordered_map<void *, size_t>`):
an association list from block base address to block size. -/
abbrev HeapMap := List (Nat × Nat)

/-- Map lookup: the value stored under key `a`, i.e. `map->find(a)`. -/
def lookupKey : HeapMap → Nat → Option Nat
  | [], _ => none
  | (k, v) :: rest, a => if k = a then some v else lookupKey rest a

/-- Key membership, i.e. `map->find(a) != map->end()`. -/
def containsKey (m : HeapMap) (a : Nat) : Bool :=
  (lookupKey m a).isSome

/-- Map store `(*map)[a] = v` (overwrite an existing entry, else append). -/
def setKey : HeapMap → Nat → Nat → HeapMap
  | [], a, v => [(a, v)]
  | (k, w) :: rest, a, v =>
    if k = a then (a, v) :: rest else (k, w) :: setKey rest a v

/-- Number of word-sized steps the scan loop takes over a `len`-byte
region: `for (p = start; p < start + len; p++)` with 8-byte steps. -/
def numWords (len : Nat) : Nat := (len + 7) / 8

/-- The byte addresses at which the scan loop reads words in the region
`[start, start + len)`. -/
def wordAddrs (start len : Nat) : List Nat :=
  (List.range (numWords len)).map fun k => start + 8 * k

/-- Little-endian 8-byte word read at address `a` (the `*p` dereference of
a `void **` in `gc_collect_scan_block`). -/
def readWord (mem : Mem) (a : Nat) : Nat :=
  ((List.range 8).map fun i => mem (a + i) * 256 ^ i).sum

/-- Store the little-endian bytes of `v` at `[a, a + 8)`; a helper for
building concrete memories in examples. -/
def storeWord (m : Mem) (a v : Nat) : Mem :=
  fun x => if a ≤ x ∧ x < a + 8 then v / 256 ^ (x - a) % 256 else m x

/-- C `memset(start, val, len)` on the byte memory. -/
def memset (m : Mem) (start val len : Nat) : Mem :=
  fun x => if start ≤ x ∧ x < start + len then val else m x

/-- The sweep loop's debug overwrite: `memset(ptr, 0xab, size)` applied to
every entry of `entries` in order. -/
def sweepMem (mem : Mem) (entries : List (Nat × Nat)) : Mem :=
  entries.foldl (fun m e => memset m e.1 0xab e.2) mem

/-- The collector's mutable module state in gc.cpp: the allocation table,
the running byte total, the debug heap cap, and the debug overwrite
flag. -/
structure GCState where
  allocations : HeapMap
  current_allocated : Nat
  max_heap_size : Nat
  overwrite_reclaimed_blocks : Bool
  deriving Repr, DecidableEq

/-- Total scan work still chargeable to unmarked tracked blocks: each
table entry whose key is unmarked contributes its word count.  This is
the potential function bounding the work-list scan. -/
def potential (allocs marked : HeapMap) : Nat :=
  (allocs.map fun e => if containsKey marked e.1 then 0 else numWords e.2).sum

/-- Word count of the whole allocation table; an upper bound on
`potential` for every mark set. -/
def totalWords (allocs : HeapMap) : Nat :=
  (allocs.map fun e => numWords e.2).sum

/-- `gc_collect_scan_block` of gc.cpp as a work-list scan.  `work` holds
the byte addresses of the words still to be examined.  For each word: if
its value is a key of `allocs` (`allocations->find(*p)`) and not yet
marked, the `(address, size)` entry is copied into `marked`
(`marked->insert(*is_valid_allocation)`) and the block's word addresses
are pushed in front of the remaining work, exactly the source's
depth-first recursion into the block.  Fuel decreases at every word;
`none` means the fuel ran out. -/
def scan (allocs : HeapMap) (mem : Mem) : Nat → List Nat → HeapMap → Option HeapMap
  | _, [], marked => some marked
  | 0, _ :: _, _ => none
  | fuel + 1, p :: rest, marked =>
    match lookupKey allocs (readWord mem p) with
    | none => scan allocs mem fuel rest marked
    | some s =>
      if containsKey marked (readWord mem p) then
        scan allocs mem fuel rest marked
      else
        scan allocs mem fuel (wordAddrs (readWord mem p) s ++ rest)
          ((readWord mem p, s) :: marked)

/-- Fuel that always suffices to scan one `len`-byte root region: one unit
per word of the region plus one per word of every tracked block plus
one. -/
def regionFuel (allocs : HeapMap) (len : Nat) : Nat :=
  numWords len + totalWords allocs + 1

/-- The mark phase continued from an existing mark set: scan each root
region in order, accumulating marks. -/
def markPhaseFrom (allocs : HeapMap) (mem : Mem) (roots : List (Nat × Nat))
    (marked : HeapMap) : HeapMap :=
  roots.foldl
    (fun marked r =>
      (scan allocs mem (regionFuel allocs r.2) (wordAddrs r.1 r.2) marked).getD marked)
    marked

/-- The mark phase of `gc_collect`: a fresh empty `marked` map, then the
root regions (register snapshot buffer, in-use stack extent, data
segment) scanned in order. -/
def markPhase (allocs : HeapMap) (mem : Mem) (roots : List (Nat × Nat)) : HeapMap :=
  markPhaseFrom allocs mem roots []

/-- `gc_collect` of gc.cpp: mark from the root regions, then sweep.  The
sweep frees every allocation absent from `marked` (first overwriting its
bytes with 0xab when `overwrite_reclaimed_blocks` is set), subtracts the
swept byte total from `current_allocated`, and replaces the allocation
table wholesale by `marked`.  Returns the new collector state and the
new memory. -/
def gc_collect (s : GCState) (mem : Mem) (roots : List (Nat × Nat)) :
    GCState × Mem :=
  let marked := markPhase s.allocations mem roots
  let swept := s.allocations.filter fun e => !containsKey marked e.1
  ({ s with
      allocations := marked,
      current_allocated := s.current_allocated - (swept.map Prod.snd).sum },
   if s.overwrite_reclaimed_blocks then sweepMem mem swept else mem)

/-- `internal_alloc` of gc.cpp: deny when the nonzero cap would be
exceeded, otherwise pass through to the underlying `calloc`, whose
outcome is the oracle `sys`. -/
def internal_alloc (s : GCState) (sys : Option Nat) (size : Nat) : Option Nat :=
  if 0 < s.max_heap_size ∧ s.max_heap_size < s.current_allocated + size then
    none
  else
    sys

/-- The bookkeeping `gc_alloc` performs on a successful allocation:
`(*allocations)[ptr] = size; current_allocated += size;`. -/
def allocRecord (s : GCState) (p size : Nat) : GCState :=
  { s with
      allocations := setKey s.allocations p size,
      current_allocated := s.current_allocated + size }

/-- `gc_alloc` of gc.cpp: try `internal_alloc`; on failure run one
`gc_collect` and retry once; record a successful pointer in the table.
`sys1`/`sys2` are the calloc outcomes of the first and second attempt;
a successful calloc returns `size` zero bytes, modelled by
`memset _ p 0 size`.  Result: the returned pointer (or `none`), the new
collector state, and the new memory. -/
def gc_alloc (s : GCState) (mem : Mem) (roots : List (Nat × Nat))
    (sys1 sys2 : Option Nat) (size : Nat) : Option Nat × GCState × Mem :=
  match internal_alloc s sys1 size with
  | some p => (some p, allocRecord s p size, memset mem p 0 size)
  | none =>
    let c := gc_collect s mem roots
    match internal_alloc c.1 sys2 size with
    | some p => (some p, allocRecord c.1 p size, memset c.2 p 0 size)
    | none => (none, c.1, c.2)

/-- `gc_debug_set_max_heap` of gc.cpp. -/
def gc_debug_set_max_heap (s : GCState) (size : Nat) : GCState :=
  { s with max_heap_size := size }

/-- The root-set discovery of `gc_init`.  `stackQuery` is the outcome of
`mach_vm_region` around the current stack pointer (`none` when the call
returned a nonzero `kern_return_t`, upon which the source does
`exit(1)`).  `dataQuery` is the outcome of `getsegbyname("__DATA")`
(`none` when it returned NULL; the source dereferences the result
unchecked, so a failed query faults and the process dies).  `slide` is
`_dyld_get_image_vmaddr_slide(0)`.  `none` models process termination;
`some` carries `(stack_start, stack_length, data_segment_start,
data_segment_length)`. -/
def gc_init (stackQuery dataQuery : Option (Nat × Nat)) (slide : Nat) :
    Option (Nat × Nat × Nat × Nat) :=
  match stackQuery with
  | none => none
  | some (addr, sz) =>
    match dataQuery with
    | none => none
    | some (vmaddr, vmsize) => some (addr, sz, vmaddr + slide, vmsize)

/-- Conservative reachability: the addresses of tracked blocks reachable
from the root regions.  A word is followed iff its value is a key of the
allocation table; a reached block's entire extent is scanned with the
same rule. -/
inductive Reaches (allocs : HeapMap) (mem : Mem) (roots : List (Nat × Nat)) : Nat → Prop
  | fromRoot {start len p a s} :
      (start, len) ∈ roots → p ∈ wordAddrs start len → readWord mem p = a →
      lookupKey allocs a = some s → Reaches allocs mem roots a
  | fromBlock {a s p b t} :
      Reaches allocs mem roots a → lookupKey allocs a = some s →
      p ∈ wordAddrs a s → readWord mem p = b →
      lookupKey allocs b = some t → Reaches allocs mem roots b

/-- One public operation against the collector: an allocation (with its
two calloc oracle outcomes and the machine's root regions at that
moment) or a manual collection. -/
inductive GCOp where
  | alloc (size : Nat) (sys1 sys2 : Option Nat) (roots : List (Nat × Nat))
  | collect (roots : List (Nat × Nat))

/-- Execute one operation on the collector state and memory. -/
def runOp : GCState × Mem → GCOp → GCState × Mem
  | (s, mem), .alloc size sys1 sys2 roots => (gc_alloc s mem roots sys1 sys2 size).2
  | (s, mem), .collect roots => gc_collect s mem roots

/-- Execute a sequence of operations. -/
def runOps (init : GCState × Mem) (ops : List GCOp) : GCState × Mem :=
  ops.foldl runOp init

/-- Extents of two table entries are disjoint. -/
def disjointExtents (e1 e2 : Nat × Nat) : Prop :=
  e1.1 + e1.2 ≤ e2.1 ∨ e2.1 + e2.2 ≤ e1.1

/-- An address that the scan may legitimately examine: a word address of a
root region, or a word address inside a reachable tracked block. -/
def GoodAddr (allocs : HeapMap) (mem : Mem) (roots : List (Nat × Nat)) (p : Nat) : Prop :=
  (∃ st ln, (st, ln) ∈ roots ∧ p ∈ wordAddrs st ln) ∨
  ∃ a s, Reaches allocs mem roots a ∧ lookupKey allocs a = some s ∧ p ∈ wordAddrs a s

theorem containsKey_nil (a : Nat) : containsKey [] a = false := rfl

theorem containsKey_cons (k v a : Nat) (m : HeapMap) :
    containsKey ((k, v) :: m) a = (decide (k = a) || containsKey m a) := by
  by_cases h : k = a <;> simp [containsKey, lookupKey, h]

theorem lookupKey_mem {l : HeapMap} {a v : Nat} (h : lookupKey l a = some v) :
    (a, v) ∈ l := by
  induction l with
  | nil => simp [lookupKey] at h
  | cons e rest ih =>
    obtain ⟨k, w⟩ := e
    rw [lookupKey] at h
    by_cases he : k = a
    · rw [if_pos he] at h
      cases h
      subst he
      exact List.mem_cons_self _ _
    · rw [if_neg he] at h
      exact List.mem_cons_of_mem _ (ih h)

theorem containsKey_isSome {m : HeapMap} {a : Nat} (h : containsKey m a = true) :
    ∃ v, lookupKey m a = some v := by
  unfold containsKey at h
  exact Option.isSome_iff_exists.mp h

theorem length_wordAddrs (start len : Nat) :
    (wordAddrs start len).length = numWords len := by
  simp [wordAddrs]

theorem memset_in {start len x : Nat} (m : Mem) (val : Nat)
    (h1 : start ≤ x) (h2 : x < start + len) : memset m start val len x = val := by
  simp [memset, h1, h2]

theorem memset_out {start len x : Nat} (m : Mem) (val : Nat)
    (h : ¬(start ≤ x ∧ x < start + len)) : memset m start val len x = m x := by
  simp only [memset, if_neg h]

theorem sweepMem_out {entries : List (Nat × Nat)} {x : Nat} (mem : Mem)
    (h : ∀ e ∈ entries, ¬(e.1 ≤ x ∧ x < e.1 + e.2)) :
    sweepMem mem entries x = mem x := by
  induction entries generalizing mem with
  | nil => rfl
  | cons e rest ih =>
    rw [show sweepMem mem (e :: rest) = sweepMem (memset mem e.1 0xab e.2) rest from rfl]
    rw [ih _ fun e' he' => h e' (List.mem_cons_of_mem _ he')]
    exact memset_out mem 0xab (h e (List.mem_cons_self e rest))

theorem sweepMem_in : ∀ (entries : List (Nat × Nat)) (mem : Mem) (x : Nat),
    (∃ e ∈ entries, e.1 ≤ x ∧ x < e.1 + e.2) → sweepMem mem entries x = 0xab := by
  intro entries
  induction entries with
  | nil =>
    rintro mem x ⟨e, he, _⟩
    cases he
  | cons f rest ih =>
    rintro mem x ⟨e, he, h1, h2⟩
    rw [show sweepMem mem (f :: rest) = sweepMem (memset mem f.1 0xab f.2) rest from rfl]
    by_cases hr : ∃ e2 ∈ rest, e2.1 ≤ x ∧ x < e2.1 + e2.2
    · exact ih _ _ hr
    · have hef : e = f := by
        rcases List.mem_cons.mp he with rfl | hmem
        · rfl
        · exact absurd ⟨e, hmem, h1, h2⟩ hr
      rw [sweepMem_out _ fun e2 he2 hc => hr ⟨e2, he2, hc⟩]
      exact memset_in _ _ (hef ▸ h1) (hef ▸ h2)

theorem pot_mono (allocs : HeapMap) {m m2 : HeapMap}
    (h : ∀ k, containsKey m k = true → containsKey m2 k = true) :
    potential allocs m2 ≤ potential allocs m := by
  induction allocs with
  | nil => simp [potential]
  | cons e rest ih =>
    simp only [potential, List.map_cons, List.sum_cons]
    have hhead : (if containsKey m2 e.1 then 0 else numWords e.2) ≤
        (if containsKey m e.1 then 0 else numWords e.2) := by
      by_cases hc : containsKey m e.1 = true
      · simp [hc, h e.1 hc]
      · split <;> omega
    have := ih
    simp only [potential] at this
    omega

theorem pot_drop (marked : HeapMap) {allocs : HeapMap} {v s : Nat}
    (hl : lookupKey allocs v = some s) (hm : containsKey marked v = false) :
    potential allocs ((v, s) :: marked) + numWords s ≤ potential allocs marked := by
  induction allocs with
  | nil => simp [lookupKey] at hl
  | cons e rest ih =>
    obtain ⟨k, w⟩ := e
    rw [lookupKey] at hl
    simp only [potential, List.map_cons, List.sum_cons]
    by_cases he : k = v
    · rw [if_pos he] at hl
      obtain rfl : w = s := by cases hl; rfl
      have h1 : containsKey ((v, w) :: marked) k = true := by
        rw [containsKey_cons]; simp [he]
      have h2 : containsKey marked k = false := by rw [he]; exact hm
      have htail : potential rest ((v, w) :: marked) ≤ potential rest marked :=
        pot_mono rest fun q hq => by rw [containsKey_cons]; simp [hq]
      simp only [potential] at htail
      simp only [h1, h2]
      simp only [if_true, Bool.false_eq_true, if_false]
      omega
    · rw [if_neg he] at hl
      have heq : containsKey ((v, s) :: marked) k = containsKey marked k := by
        rw [containsKey_cons]
        simp [Ne.symm he]
      have := ih hl
      simp only [potential] at this
      rw [heq]
      omega

theorem scan_nil (allocs : HeapMap) (mem : Mem) (fuel : Nat) (marked : HeapMap) :
    scan allocs mem fuel [] marked = some marked := by
  cases fuel <;> rfl

theorem scan_zero (allocs : HeapMap) (mem : Mem) (p : Nat) (rest : List Nat)
    (marked : HeapMap) : scan allocs mem 0 (p :: rest) marked = none := rfl

theorem scan_cons_none {allocs : HeapMap} {mem : Mem} {p : Nat} (f : Nat)
    (rest : List Nat) (marked : HeapMap)
    (h : lookupKey allocs (readWord mem p) = none) :
    scan allocs mem (f + 1) (p :: rest) marked = scan allocs mem f rest marked := by
  simp [scan, h]

theorem scan_cons_marked {allocs : HeapMap} {mem : Mem} {p s : Nat} (f : Nat)
    (rest : List Nat) {marked : HeapMap}
    (h : lookupKey allocs (readWord mem p) = some s)
    (hc : containsKey marked (readWord mem p) = true) :
    scan allocs mem (f + 1) (p :: rest) marked = scan allocs mem f rest marked := by
  simp [scan, h, hc]

theorem scan_cons_mark {allocs : HeapMap} {mem : Mem} {p s : Nat} (f : Nat)
    (rest : List Nat) {marked : HeapMap}
    (h : lookupKey allocs (readWord mem p) = some s)
    (hc : containsKey marked (readWord mem p) = false) :
    scan allocs mem (f + 1) (p :: rest) marked =
      scan allocs mem f (wordAddrs (readWord mem p) s ++ rest)
        ((readWord mem p, s) :: marked) := by
  simp [scan, h, hc]

theorem pot_le_total (allocs marked : HeapMap) :
    potential allocs marked ≤ totalWords allocs := by
  induction allocs with
  | nil => simp [potential, totalWords]
  | cons e rest ih =>
    simp only [potential, totalWords, List.map_cons, List.sum_cons] at *
    have : (if containsKey marked e.1 then 0 else numWords e.2) ≤ numWords e.2 := by
      split <;> omega
    omega

theorem scan_isSome (allocs : HeapMap) (mem : Mem) :
    ∀ (fuel : Nat) (work : List Nat) (marked : HeapMap),
      work.length + potential allocs marked ≤ fuel →
      (scan allocs mem fuel work marked).isSome = true := by
  intro fuel
  induction fuel with
  | zero =>
    intro work marked h
    obtain rfl : work = [] := List.length_eq_zero.mp (by omega)
    rw [scan_nil]
    rfl
  | succ f ih =>
    intro work marked h
    cases work with
    | nil => rw [scan_nil]; rfl
    | cons p rest =>
      simp only [List.length_cons] at h
      cases hl : lookupKey allocs (readWord mem p) with
      | none =>
        rw [scan_cons_none f rest marked hl]
        exact ih rest marked (by omega)
      | some s =>
        cases hc : containsKey marked (readWord mem p) with
        | true =>
          rw [scan_cons_marked f rest hl hc]
          exact ih rest marked (by omega)
        | false =>
          rw [scan_cons_mark f rest hl hc]
          apply ih
          have hdrop := pot_drop marked hl hc
          have hlen := length_wordAddrs (readWord mem p) s
          simp only [List.length_append, List.length_cons]
          omega

theorem scan_mono (allocs : HeapMap) (mem : Mem) :
    ∀ (fuel : Nat) (work : List Nat) (marked m : HeapMap),
      scan allocs mem fuel work marked = some m →
      ∀ k, containsKey marked k = true → containsKey m k = true := by
  intro fuel
  induction fuel with
  | zero =>
    intro work marked m hs k hk
    cases work with
    | nil => rw [scan_nil] at hs; cases hs; exact hk
    | cons p rest => rw [scan_zero] at hs; cases hs
  | succ f ih =>
    intro work marked m hs k hk
    cases work with
    | nil => rw [scan_nil] at hs; cases hs; exact hk
    | cons p rest =>
      cases hl : lookupKey allocs (readWord mem p) with
      | none =>
        rw [scan_cons_none f rest marked hl] at hs
        exact ih rest marked m hs k hk
      | some s =>
        cases hc : containsKey marked (readWord mem p) with
        | true =>
          rw [scan_cons_marked f rest hl hc] at hs
          exact ih rest marked m hs k hk
        | false =>
          rw [scan_cons_mark f rest hl hc] at hs
          refine ih _ _ m hs k ?_
          rw [containsKey_cons]
          simp [hk]

theorem scan_consistent (allocs : HeapMap) (mem : Mem) :
    ∀ (fuel : Nat) (work : List Nat) (marked m : HeapMap),
      scan allocs mem fuel work marked = some m →
      (∀ a s, lookupKey marked a = some s → lookupKey allocs a = some s) →
      ∀ a s, lookupKey m a = some s → lookupKey allocs a = some s := by
  intro fuel
  induction fuel with
  | zero =>
    intro work marked m hs hcons
    cases work with
    | nil => rw [scan_nil] at hs; cases hs; exact hcons
    | cons p rest => rw [scan_zero] at hs; cases hs
  | succ f ih =>
    intro work marked m hs hcons
    cases work with
    | nil => rw [scan_nil] at hs; cases hs; exact hcons
    | cons p rest =>
      cases hl : lookupKey allocs (readWord mem p) with
      | none =>
        rw [scan_cons_none f rest marked hl] at hs
        exact ih rest marked m hs hcons
      | some s =>
        cases hc : containsKey marked (readWord mem p) with
        | true =>
          rw [scan_cons_marked f rest hl hc] at hs
          exact ih rest marked m hs hcons
        | false =>
          rw [scan_cons_mark f rest hl hc] at hs
          refine ih _ _ m hs ?_
          intro a t hla
          rw [lookupKey] at hla
          by_cases ha : readWord mem p = a
          · rw [if_pos ha] at hla
            cases hla
            rw [← ha]
            exact hl
          · rw [if_neg ha] at hla
            exact hcons a t hla

theorem scan_work (allocs : HeapMap) (mem : Mem) :
    ∀ (fuel : Nat) (work : List Nat) (marked m : HeapMap),
      scan allocs mem fuel work marked = some m →
      ∀ p ∈ work, ∀ s, lookupKey allocs (readWord mem p) = some s →
      containsKey m (readWord mem p) = true := by
  intro fuel
  induction fuel with
  | zero =>
    intro work marked m hs p hp
    cases work with
    | nil => cases hp
    | cons q rest => rw [scan_zero] at hs; cases hs
  | succ f ih =>
    intro work marked m hs p hp s hps
    cases work with
    | nil => cases hp
    | cons q rest =>
      cases hl : lookupKey allocs (readWord mem q) with
      | none =>
        rw [scan_cons_none f rest marked hl] at hs
        rcases List.mem_cons.mp hp with rfl | hmem
        · rw [hps] at hl; cases hl
        · exact ih rest marked m hs p hmem s hps
      | some t =>
        cases hc : containsKey marked (readWord mem q) with
        | true =>
          rw [scan_cons_marked f rest hl hc] at hs
          rcases List.mem_cons.mp hp with rfl | hmem
          · exact scan_mono allocs mem f rest marked m hs _ hc
          · exact ih rest marked m hs p hmem s hps
        | false =>
          rw [scan_cons_mark f rest hl hc] at hs
          rcases List.mem_cons.mp hp with rfl | hmem
          · refine scan_mono allocs mem f _ _ m hs _ ?_
            rw [containsKey_cons]
            simp
          · exact ih _ _ m hs p (List.mem_append_right _ hmem) s hps

theorem scan_sound (allocs : HeapMap) (mem : Mem) (roots : List (Nat × Nat)) :
    ∀ (fuel : Nat) (work : List Nat) (marked m : HeapMap),
      scan allocs mem fuel work marked = some m →
      (∀ p ∈ work, GoodAddr allocs mem roots p) →
      (∀ k, containsKey marked k = true → Reaches allocs mem roots k) →
      ∀ k, containsKey m k = true → Reaches allocs mem roots k := by
  intro fuel
  induction fuel with
  | zero =>
    intro work marked m hs hgood hinv
    cases work with
    | nil => rw [scan_nil] at hs; cases hs; exact hinv
    | cons q rest => rw [scan_zero] at hs; cases hs
  | succ f ih =>
    intro work marked m hs hgood hinv
    cases work with
    | nil => rw [scan_nil] at hs; cases hs; exact hinv
    | cons q rest =>
      cases hl : lookupKey allocs (readWord mem q) with
      | none =>
        rw [scan_cons_none f rest marked hl] at hs
        exact ih rest marked m hs
          (fun p hp => hgood p (List.mem_cons_of_mem _ hp)) hinv
      | some s =>
        cases hc : containsKey marked (readWord mem q) with
        | true =>
          rw [scan_cons_marked f rest hl hc] at hs
          exact ih rest marked m hs
            (fun p hp => hgood p (List.mem_cons_of_mem _ hp)) hinv
        | false =>
          rw [scan_cons_mark f rest hl hc] at hs
          have hreach : Reaches allocs mem roots (readWord mem q) := by
            rcases hgood q (List.mem_cons_self q rest) with
              ⟨st, ln, hroot, hin⟩ | ⟨a, sa, hra, hla, hin⟩
            · exact Reaches.fromRoot hroot hin rfl hl
            · exact Reaches.fromBlock hra hla hin rfl hl
          refine ih _ _ m hs ?_ ?_
          · intro p hp
            rcases List.mem_append.mp hp with hin | hmem
            · exact Or.inr ⟨readWord mem q, s, hreach, hl, hin⟩
            · exact hgood p (List.mem_cons_of_mem _ hmem)
          · intro k hk
            rw [containsKey_cons] at hk
            rcases Bool.or_eq_true_iff.mp hk with hv | hold
            · rw [← of_decide_eq_true hv]
              exact hreach
            · exact hinv k hold

theorem scan_closed (allocs : HeapMap) (mem : Mem) :
    ∀ (fuel : Nat) (work : List Nat) (marked m : HeapMap),
      scan allocs mem fuel work marked = some m →
      ∀ a, containsKey m a = true → containsKey marked a = false →
      ∀ s, lookupKey allocs a = some s →
      ∀ p ∈ wordAddrs a s, ∀ t, lookupKey allocs (readWord mem p) = some t →
      containsKey m (readWord mem p) = true := by
  intro fuel
  induction fuel with
  | zero =>
    intro work marked m hs a ham hamarked
    cases work with
    | nil =>
      rw [scan_nil] at hs
      cases hs
      rw [ham] at hamarked
      cases hamarked
    | cons q rest => rw [scan_zero] at hs; cases hs
  | succ f ih =>
    intro work marked m hs a ham hamarked s hla p hp t hlt
    cases work with
    | nil =>
      rw [scan_nil] at hs
      cases hs
      rw [ham] at hamarked
      cases hamarked
    | cons q rest =>
      cases hl : lookupKey allocs (readWord mem q) with
      | none =>
        rw [scan_cons_none f rest marked hl] at hs
        exact ih rest marked m hs a ham hamarked s hla p hp t hlt
      | some sv =>
        cases hc : containsKey marked (readWord mem q) with
        | true =>
          rw [scan_cons_marked f rest hl hc] at hs
          exact ih rest marked m hs a ham hamarked s hla p hp t hlt
        | false =>
          rw [scan_cons_mark f rest hl hc] at hs
          by_cases hav : readWord mem q = a
          · obtain rfl : sv = s := by
              rw [hav, hla] at hl
              cases hl
              rfl
            refine scan_work allocs mem f _ _ m hs p ?_ t hlt
            refine List.mem_append_left _ ?_
            rw [hav]
            exact hp
          · refine ih _ _ m hs a ham ?_ s hla p hp t hlt
            rw [containsKey_cons]
            simp [hav, hamarked]

theorem markPhaseFrom_nil (allocs : HeapMap) (mem : Mem) (marked : HeapMap) :
    markPhaseFrom allocs mem [] marked = marked := rfl

theorem regionFuel_ok (allocs : HeapMap) (mem : Mem) (st ln : Nat) (marked : HeapMap) :
    ∃ m, scan allocs mem (regionFuel allocs ln) (wordAddrs st ln) marked = some m := by
  refine Option.isSome_iff_exists.mp (scan_isSome allocs mem _ _ marked ?_)
  rw [length_wordAddrs, regionFuel]
  have := pot_le_total allocs marked
  omega

theorem markPhaseFrom_cons {allocs : HeapMap} {mem : Mem} {st ln : Nat}
    (rs : List (Nat × Nat)) {marked m : HeapMap}
    (h : scan allocs mem (regionFuel allocs ln) (wordAddrs st ln) marked = some m) :
    markPhaseFrom allocs mem ((st, ln) :: rs) marked = markPhaseFrom allocs mem rs m := by
  simp [markPhaseFrom, h]

theorem markPhaseFrom_mono (allocs : HeapMap) (mem : Mem) :
    ∀ (rs : List (Nat × Nat)) (marked : HeapMap) (k : Nat),
      containsKey marked k = true →
      containsKey (markPhaseFrom allocs mem rs marked) k = true := by
  intro rs
  induction rs with
  | nil => exact fun marked k hk => hk
  | cons r rest ih =>
    intro marked k hk
    obtain ⟨st, ln⟩ := r
    obtain ⟨m, hm⟩ := regionFuel_ok allocs mem st ln marked
    rw [markPhaseFrom_cons rest hm]
    exact ih m k (scan_mono allocs mem _ _ _ _ hm k hk)

theorem markPhaseFrom_processed (allocs : HeapMap) (mem : Mem) :
    ∀ (rs : List (Nat × Nat)) (marked : HeapMap) (st ln : Nat),
      (st, ln) ∈ rs → ∀ p ∈ wordAddrs st ln, ∀ s,
      lookupKey allocs (readWord mem p) = some s →
      containsKey (markPhaseFrom allocs mem rs marked) (readWord mem p) = true := by
  intro rs
  induction rs with
  | nil =>
    intro marked st ln hmem
    cases hmem
  | cons r rest ih =>
    intro marked st ln hmem p hp s hl
    obtain ⟨st2, ln2⟩ := r
    obtain ⟨m, hm⟩ := regionFuel_ok allocs mem st2 ln2 marked
    rw [markPhaseFrom_cons rest hm]
    rcases List.mem_cons.mp hmem with heq | hmem2
    · obtain ⟨rfl, rfl⟩ := Prod.mk.injEq .. ▸ heq
      exact markPhaseFrom_mono allocs mem rest m _
        (scan_work allocs mem _ _ _ _ hm p hp s hl)
    · exact ih m st ln hmem2 p hp s hl

theorem markPhaseFrom_sound (allocs : HeapMap) (mem : Mem) (roots : List (Nat × Nat)) :
    ∀ (rs : List (Nat × Nat)), (∀ r ∈ rs, r ∈ roots) →
    ∀ (marked : HeapMap),
      (∀ k, containsKey marked k = true → Reaches allocs mem roots k) →
      ∀ k, containsKey (markPhaseFrom allocs mem rs marked) k = true →
      Reaches allocs mem roots k := by
  intro rs
  induction rs with
  | nil => exact fun _ marked hinv => hinv
  | cons r rest ih =>
    intro hsub marked hinv k hk
    obtain ⟨st, ln⟩ := r
    obtain ⟨m, hm⟩ := regionFuel_ok allocs mem st ln marked
    rw [markPhaseFrom_cons rest hm] at hk
    refine ih (fun r hr => hsub r (List.mem_cons_of_mem _ hr)) m ?_ k hk
    refine scan_sound allocs mem roots _ _ _ _ hm ?_ hinv
    intro p hp
    exact Or.inl ⟨st, ln, hsub (st, ln) (List.mem_cons_self _ _), hp⟩

theorem markPhaseFrom_closed (allocs : HeapMap) (mem : Mem) :
    ∀ (rs : List (Nat × Nat)) (marked : HeapMap) (a : Nat),
      containsKey (markPhaseFrom allocs mem rs marked) a = true →
      containsKey marked a = false →
      ∀ s, lookupKey allocs a = some s →
      ∀ p ∈ wordAddrs a s, ∀ t, lookupKey allocs (readWord mem p) = some t →
      containsKey (markPhaseFrom allocs mem rs marked) (readWord mem p) = true := by
  intro rs
  induction rs with
  | nil =>
    intro marked a ha hamarked
    rw [markPhaseFrom_nil] at ha
    rw [ha] at hamarked
    cases hamarked
  | cons r rest ih =>
    intro marked a ha hamarked s hla p hp t hlt
    obtain ⟨st, ln⟩ := r
    obtain ⟨m, hm⟩ := regionFuel_ok allocs mem st ln marked
    rw [markPhaseFrom_cons rest hm] at ha ⊢
    cases hcm : containsKey m a with
    | true =>
      exact markPhaseFrom_mono allocs mem rest m _
        (scan_closed allocs mem _ _ _ _ hm a hcm hamarked s hla p hp t hlt)
    | false => exact ih m a ha hcm s hla p hp t hlt

theorem markPhaseFrom_consistent (allocs : HeapMap) (mem : Mem) :
    ∀ (rs : List (Nat × Nat)) (marked : HeapMap),
      (∀ a s, lookupKey marked a = some s → lookupKey allocs a = some s) →
      ∀ a s, lookupKey (markPhaseFrom allocs mem rs marked) a = some s →
      lookupKey allocs a = some s := by
  intro rs
  induction rs with
  | nil => exact fun marked hcons => hcons
  | cons r rest ih =>
    intro marked hcons
    obtain ⟨st, ln⟩ := r
    obtain ⟨m, hm⟩ := regionFuel_ok allocs mem st ln marked
    rw [markPhaseFrom_cons rest hm]
    exact ih m (scan_consistent allocs mem _ _ _ _ hm hcons)

theorem marked_reaches (allocs : HeapMap) (mem : Mem) (roots : List (Nat × Nat))
    (a : Nat) (h : containsKey (markPhase allocs mem roots) a = true) :
    Reaches allocs mem roots a := by
  refine markPhaseFrom_sound allocs mem roots roots (fun r hr => hr) [] ?_ a h
  intro k hk
  rw [containsKey_nil] at hk
  cases hk

theorem reaches_marked (allocs : HeapMap) (mem : Mem) (roots : List (Nat × Nat))
    (a : Nat) (h : Reaches allocs mem roots a) :
    containsKey (markPhase allocs mem roots) a = true := by
  induction h with
  | fromRoot hroot hin heq hl =>
    subst heq
    exact markPhaseFrom_processed allocs mem roots [] _ _ hroot _ hin _ hl
  | fromBlock hra hla hin heq hlt ih =>
    subst heq
    exact markPhaseFrom_closed allocs mem roots [] _ ih (containsKey_nil _) _ hla _ hin _ hlt

theorem markPhase_consistent (allocs : HeapMap) (mem : Mem) (roots : List (Nat × Nat))
    (a s : Nat) (h : lookupKey (markPhase allocs mem roots) a = some s) :
    lookupKey allocs a = some s := by
  refine markPhaseFrom_consistent allocs mem roots [] ?_ a s h
  intro a s hl
  rw [show lookupKey [] a = none from rfl] at hl
  cases hl

theorem pairwise_disjoint {l : HeapMap} (h : l.Pairwise disjointExtents)
    {e1 e2 : Nat × Nat} (h1 : e1 ∈ l) (h2 : e2 ∈ l) (hne : e1 ≠ e2) :
    disjointExtents e1 e2 :=
  h.forall (fun _ _ hd => hd.symm) h1 h2 hne

theorem lookupKey_setKey_self : ∀ (l : HeapMap) (a v : Nat),
    lookupKey (setKey l a v) a = some v := by
  intro l a v
  induction l with
  | nil => simp [setKey, lookupKey]
  | cons e rest ih =>
    obtain ⟨k, w⟩ := e
    rw [setKey]
    by_cases h : k = a
    · rw [if_pos h, lookupKey, if_pos rfl]
    · rw [if_neg h, lookupKey, if_neg h]
      exact ih

theorem lookupKey_setKey_ne : ∀ (l : HeapMap) (a v q : Nat), q ≠ a →
    lookupKey (setKey l a v) q = lookupKey l q := by
  intro l a v
  induction l with
  | nil =>
    intro q hq
    show (if a = q then some v else lookupKey [] q) = lookupKey [] q
    rw [if_neg fun h : a = q => hq h.symm]
  | cons e rest ih =>
    intro q hq
    obtain ⟨k, w⟩ := e
    rw [setKey]
    by_cases h : k = a
    · rw [if_pos h, lookupKey, if_neg (fun hh => hq hh.symm), lookupKey,
        if_neg (fun hh : k = q => hq (h ▸ hh).symm)]
    · rw [if_neg h, lookupKey, lookupKey]
      by_cases hkq : k = q
      · rw [if_pos hkq, if_pos hkq]
      · rw [if_neg hkq, if_neg hkq]
        exact ih q hq

theorem internal_alloc_some_le {s : GCState} {sys : Option Nat} {size p : Nat}
    (h : internal_alloc s sys size = some p) (hmax : 0 < s.max_heap_size) :
    s.current_allocated + size ≤ s.max_heap_size := by
  unfold internal_alloc at h
  by_cases hc : 0 < s.max_heap_size ∧ s.max_heap_size < s.current_allocated + size
  · rw [if_pos hc] at h
    cases h
  · omega

theorem gc_collect_max (s : GCState) (mem : Mem) (roots : List (Nat × Nat)) :
    (gc_collect s mem roots).1.max_heap_size = s.max_heap_size := rfl

theorem gc_collect_overwrite (s : GCState) (mem : Mem) (roots : List (Nat × Nat)) :
    (gc_collect s mem roots).1.overwrite_reclaimed_blocks =
      s.overwrite_reclaimed_blocks := rfl

theorem gc_collect_current_le (s : GCState) (mem : Mem) (roots : List (Nat × Nat)) :
    (gc_collect s mem roots).1.current_allocated ≤ s.current_allocated :=
  Nat.sub_le _ _

theorem gc_alloc_first {s : GCState} {mem : Mem} {roots : List (Nat × Nat)}
    {sys1 sys2 : Option Nat} {size p : Nat}
    (h : internal_alloc s sys1 size = some p) :
    gc_alloc s mem roots sys1 sys2 size =
      (some p, allocRecord s p size, memset mem p 0 size) := by
  simp [gc_alloc, h]

theorem gc_alloc_second {s : GCState} {mem : Mem} {roots : List (Nat × Nat)}
    {sys1 sys2 : Option Nat} {size p : Nat}
    (h1 : internal_alloc s sys1 size = none)
    (h2 : internal_alloc (gc_collect s mem roots).1 sys2 size = some p) :
    gc_alloc s mem roots sys1 sys2 size =
      (some p, allocRecord (gc_collect s mem roots).1 p size,
        memset (gc_collect s mem roots).2 p 0 size) := by
  simp [gc_alloc, h1, h2]

theorem gc_alloc_fail {s : GCState} {mem : Mem} {roots : List (Nat × Nat)}
    {sys1 sys2 : Option Nat} {size : Nat}
    (h1 : internal_alloc s sys1 size = none)
    (h2 : internal_alloc (gc_collect s mem roots).1 sys2 size = none) :
    gc_alloc s mem roots sys1 sys2 size =
      (none, (gc_collect s mem roots).1, (gc_collect s mem roots).2) := by
  simp [gc_alloc, h1, h2]

theorem runOp_inv (op : GCOp) (sm : GCState × Mem)
    (hmax : 0 < sm.1.max_heap_size)
    (hle : sm.1.current_allocated ≤ sm.1.max_heap_size) :
    (runOp sm op).1.max_heap_size = sm.1.max_heap_size ∧
    (runOp sm op).1.current_allocated ≤ (runOp sm op).1.max_heap_size := by
  obtain ⟨s, mem⟩ := sm
  cases op with
  | collect roots =>
    have hrw : runOp (s, mem) (GCOp.collect roots) = gc_collect s mem roots := rfl
    rw [hrw]
    refine ⟨gc_collect_max s mem roots, ?_⟩
    rw [gc_collect_max s mem roots]
    exact le_trans (gc_collect_current_le s mem roots) hle
  | alloc size sys1 sys2 roots =>
    have hrw : runOp (s, mem) (GCOp.alloc size sys1 sys2 roots) =
        (gc_alloc s mem roots sys1 sys2 size).2 := rfl
    rw [hrw]
    cases h1 : internal_alloc s sys1 size with
    | some p =>
      rw [gc_alloc_first h1]
      exact ⟨rfl, internal_alloc_some_le h1 hmax⟩
    | none =>
      cases h2 : internal_alloc (gc_collect s mem roots).1 sys2 size with
      | some p =>
        rw [gc_alloc_second h1 h2]
        refine ⟨gc_collect_max s mem roots, ?_⟩
        have hm2 : 0 < (gc_collect s mem roots).1.max_heap_size := by
          rw [gc_collect_max s mem roots]
          exact hmax
        exact internal_alloc_some_le h2 hm2
      | none =>
        rw [gc_alloc_fail h1 h2]
        refine ⟨gc_collect_max s mem roots, ?_⟩
        rw [gc_collect_max s mem roots]
        exact le_trans (gc_collect_current_le s mem roots) hle

theorem runOps_inv (ops : List GCOp) : ∀ (sm : GCState × Mem),
    0 < sm.1.max_heap_size → sm.1.current_allocated ≤ sm.1.max_heap_size →
    (runOps sm ops).1.max_heap_size = sm.1.max_heap_size ∧
    (runOps sm ops).1.current_allocated ≤ (runOps sm ops).1.max_heap_size := by
  induction ops with
  | nil => exact fun sm _ hle => ⟨rfl, hle⟩
  | cons op rest ih =>
    intro sm hmax hle
    have hstep := runOp_inv op sm hmax hle
    have hrest := ih (runOp sm op) (hstep.1 ▸ hmax) hstep.2
    rw [show runOps sm (op :: rest) = runOps (runOp sm op) rest from rfl]
    exact ⟨hrest.1.trans hstep.1, hrest.2⟩

/-- Constant-zero byte memory, for concrete instances. -/
def zeroMem : Mem := fun _ => 0

/-- A concrete memory whose word at address 300 is the value 100, used by
concrete instances: a root region at 300 references a block at 100. -/
def demoMem : Mem := storeWord zeroMem 300 100

/-- A concrete memory with every byte 7, used to observe zero-filling. -/
def sevenMem : Mem := fun _ => 7

/-- C1: after the mark phase over the root regions (register snapshot
buffer, in-use stack extent, static-data extent), the mark set contains
exactly the tracked blocks transitively reachable from those root
regions: a word is followed iff its value is a key of the allocation
table, and a newly marked block's entire byte extent is scanned
recursively with the same rule. -/
theorem markPhase_eq_reachable (allocs : HeapMap) (mem : Mem)
    (roots : List (Nat × Nat)) (a : Nat) :
    containsKey (markPhase allocs mem roots) a = true ↔ Reaches allocs mem roots a :=
  ⟨marked_reaches allocs mem roots a, reaches_marked allocs mem roots a⟩

/-- C8: the mark traversal terminates for every finite allocation table
and every root-region and memory contents: the fuel `regionFuel` (one
step per word of the region plus one per word of every tracked block)
always suffices, because a block already present in the mark set is
never entered again. -/
theorem scan_terminates (allocs : HeapMap) (mem : Mem) (start len : Nat)
    (marked : HeapMap) :
    ∃ m, scan allocs mem (regionFuel allocs len) (wordAddrs start len) marked = some m :=
  regionFuel_ok allocs mem start len marked

/-- C9: during one-time initialization, failure of the platform query
for either the stack range or the static-data range terminates the
process (`gc_init` produces no root state); initialization never
continues with a missing root region. -/
theorem gc_init_root_failure_fatal (sq dq : Option (Nat × Nat)) (slide : Nat)
    (h : sq = none ∨ dq = none) : gc_init sq dq slide = none := by
  rcases h with rfl | rfl
  · rfl
  · cases sq with
    | none => rfl
    | some r =>
      obtain ⟨a, b⟩ := r
      rfl

/-- Witness for C9 at a concrete failed stack query. -/
theorem gc_init_root_failure_fatal_witness : gc_init none (some (5, 6)) 0 = none :=
  gc_init_root_failure_fatal none (some (5, 6)) 0 (Or.inl rfl)

/-- C10: setting the maximum heap size to zero disables the cap
entirely: the cap check in `internal_alloc` passes for every request
size and state, and the request proceeds to the underlying allocator. -/
theorem zero_cap_disables_limit (s : GCState) (sys : Option Nat) (size : Nat) :
    internal_alloc (gc_debug_set_max_heap s 0) sys size = sys := by
  simp [internal_alloc, gc_debug_set_max_heap]

/-- C2: during the sweep phase of every collection, every entry of the
allocation table absent from the mark set is removed from the table,
has its bytes overwritten with the 0xab sentinel when the overwrite
flag is enabled, and its size is subtracted from the running total;
afterwards the allocation table is replaced wholesale by the mark set,
and without the flag memory is untouched. -/
theorem gc_collect_sweep_spec (s : GCState) (mem : Mem) (roots : List (Nat × Nat)) :
    (gc_collect s mem roots).1.allocations = markPhase s.allocations mem roots ∧
    (gc_collect s mem roots).1.current_allocated =
      s.current_allocated -
        (((s.allocations.filter fun e =>
            !containsKey (markPhase s.allocations mem roots) e.1).map Prod.snd).sum) ∧
    (∀ e ∈ s.allocations,
      containsKey (markPhase s.allocations mem roots) e.1 = false →
      containsKey (gc_collect s mem roots).1.allocations e.1 = false ∧
      (s.overwrite_reclaimed_blocks = true →
        ∀ i < e.2, (gc_collect s mem roots).2 (e.1 + i) = 0xab)) ∧
    (s.overwrite_reclaimed_blocks = false → (gc_collect s mem roots).2 = mem) := by
  refine ⟨rfl, rfl, ?_, ?_⟩
  · intro e he hc
    refine ⟨hc, ?_⟩
    intro hov i hi
    have h2 : (gc_collect s mem roots).2 =
        sweepMem mem (s.allocations.filter fun e =>
          !containsKey (markPhase s.allocations mem roots) e.1) := by
      simp [gc_collect, hov]
    rw [h2]
    refine sweepMem_in _ mem (e.1 + i) ⟨e, ?_, Nat.le_add_right _ _, Nat.add_lt_add_left hi _⟩
    refine List.mem_filter.mpr ⟨he, ?_⟩
    rw [hc]
    rfl
  · intro hov
    simp [gc_collect, hov]

/-- Witness for C2: an unreachable block at 200 is overwritten with the
sentinel when the flag is on. -/
theorem gc_collect_sweep_spec_witness :
    (gc_collect ⟨[(100, 8), (200, 8)], 16, 0, true⟩ demoMem [(300, 8)]).2 205 = 0xab :=
  ((gc_collect_sweep_spec ⟨[(100, 8), (200, 8)], 16, 0, true⟩ demoMem [(300, 8)]).2.2.1
    (200, 8) (by decide) (by decide)).2 rfl 5 (by decide)

/-- C3: every block reachable from a root at the moment a collection
starts keeps both its allocation-table entry (same base address and
size) and its byte contents across that collection, given that tracked
blocks have pairwise disjoint extents (the underlying allocator's
guarantee); only unmarked blocks are overwritten or freed. -/
theorem gc_collect_preserves_reachable (s : GCState) (mem : Mem)
    (roots : List (Nat × Nat)) (a : Nat)
    (hdisj : s.allocations.Pairwise disjointExtents)
    (hreach : Reaches s.allocations mem roots a) :
    lookupKey (gc_collect s mem roots).1.allocations a = lookupKey s.allocations a ∧
    ∀ sa, lookupKey s.allocations a = some sa →
      ∀ i < sa, (gc_collect s mem roots).2 (a + i) = mem (a + i) := by
  have hm : containsKey (markPhase s.allocations mem roots) a = true :=
    reaches_marked s.allocations mem roots a hreach
  obtain ⟨sa0, hsa0⟩ := containsKey_isSome hm
  have halloc := markPhase_consistent s.allocations mem roots a sa0 hsa0
  constructor
  · show lookupKey (markPhase s.allocations mem roots) a = lookupKey s.allocations a
    rw [hsa0, halloc]
  · intro sa hsa i hi
    cases hov : s.overwrite_reclaimed_blocks with
    | false =>
      have h2 : (gc_collect s mem roots).2 = mem := by simp [gc_collect, hov]
      rw [h2]
    | true =>
      have h2 : (gc_collect s mem roots).2 =
          sweepMem mem (s.allocations.filter fun e =>
            !containsKey (markPhase s.allocations mem roots) e.1) := by
        simp [gc_collect, hov]
      rw [h2]
      refine sweepMem_out mem ?_
      rintro e hefilter ⟨hx1, hx2⟩
      obtain ⟨he, hpe⟩ := List.mem_filter.mp hefilter
      have hce : containsKey (markPhase s.allocations mem roots) e.1 = false := by
        simpa using hpe
      have hea : e.1 ≠ a := by
        intro h
        rw [h, hm] at hce
        cases hce
      have hmema : (a, sa) ∈ s.allocations := lookupKey_mem hsa
      have hne : e ≠ (a, sa) := fun h => hea (by rw [h])
      have hd : e.1 + e.2 ≤ a ∨ a + sa ≤ e.1 :=
        pairwise_disjoint hdisj he hmema hne
      omega

/-- Witness for C3: the root-reachable block at 100 keeps its bytes
across a collection that runs with the overwrite flag enabled. -/
theorem gc_collect_preserves_reachable_witness :
    (gc_collect ⟨[(100, 8)], 8, 0, true⟩ demoMem [(300, 8)]).2 103 = demoMem 103 :=
  (gc_collect_preserves_reachable ⟨[(100, 8)], 8, 0, true⟩ demoMem [(300, 8)] 100
      (by simp [List.pairwise_singleton])
      (@Reaches.fromRoot [(100, 8)] demoMem [(300, 8)] 300 8 300 100 8
        (by decide) (by decide) (by decide) (by decide))).2
    8 (by decide) 3 (by decide)

/-- C4: `gc_alloc` attempts the underlying allocation; when the first
attempt succeeds no collection runs; when it fails, exactly one
synchronous collection runs and the allocation is retried exactly once;
when the retry also fails, `gc_alloc` returns null and the final state
is exactly that of the single collection — no further collections or
retries. -/
theorem gc_alloc_retry_once (s : GCState) (mem : Mem) (roots : List (Nat × Nat))
    (sys1 sys2 : Option Nat) (size : Nat) :
    (∀ p, internal_alloc s sys1 size = some p →
      gc_alloc s mem roots sys1 sys2 size =
        (some p, allocRecord s p size, memset mem p 0 size)) ∧
    (internal_alloc s sys1 size = none →
      ∀ p, internal_alloc (gc_collect s mem roots).1 sys2 size = some p →
      gc_alloc s mem roots sys1 sys2 size =
        (some p, allocRecord (gc_collect s mem roots).1 p size,
          memset (gc_collect s mem roots).2 p 0 size)) ∧
    (internal_alloc s sys1 size = none →
      internal_alloc (gc_collect s mem roots).1 sys2 size = none →
      gc_alloc s mem roots sys1 sys2 size =
        (none, (gc_collect s mem roots).1, (gc_collect s mem roots).2)) :=
  ⟨fun _ h => gc_alloc_first h,
   fun h1 _ h2 => gc_alloc_second h1 h2,
   fun h1 h2 => gc_alloc_fail h1 h2⟩

/-- Witness for C4: a request that fails the first attempt, collects
once, and still fails on retry returns null with exactly the collected
state and memory. -/
theorem gc_alloc_retry_once_witness :
    gc_alloc ⟨[(100, 8)], 8, 8, false⟩ demoMem [(300, 8)] (some 500) (some 500) 1 =
      (none, (gc_collect ⟨[(100, 8)], 8, 8, false⟩ demoMem [(300, 8)]).1,
        (gc_collect ⟨[(100, 8)], 8, 8, false⟩ demoMem [(300, 8)]).2) :=
  (gc_alloc_retry_once ⟨[(100, 8)], 8, 8, false⟩ demoMem [(300, 8)]
    (some 500) (some 500) 1).2.2 (by decide) (by decide)

/-- C5 counterexample: with a cap of 8 fully used by an unreachable
block, a request of size 1 exceeds the cap, yet `gc_alloc` triggers a
collection (the allocation table changes) and the retried allocation
succeeds — the request does not fail, and a collection is triggered by
the cap failure, contrary to the claim. -/
theorem cap_denial_collects_cex :
    (0 < (⟨[(100, 8)], 8, 8, false⟩ : GCState).max_heap_size ∧
      (⟨[(100, 8)], 8, 8, false⟩ : GCState).max_heap_size <
        (⟨[(100, 8)], 8, 8, false⟩ : GCState).current_allocated + 1) ∧
    (gc_alloc ⟨[(100, 8)], 8, 8, false⟩ zeroMem [] (some 200) (some 200) 1).1 = some 200 ∧
    (gc_alloc ⟨[(100, 8)], 8, 8, false⟩ zeroMem [] (some 200) (some 200) 1).2.1.allocations
      = [(200, 1)] := by
  decide

/-- C5 (amended): when the request would push the total over a nonzero
cap, `internal_alloc` denies it without consulting the underlying
allocator (the outcome is `none` for every calloc oracle); `gc_alloc`,
however, reacts to this failure like any other allocation failure: it
runs one collection and retries once, so the request fails only when
the retry fails too. -/
theorem cap_denial_no_underlying_alloc (s : GCState) (mem : Mem)
    (roots : List (Nat × Nat)) (sys1 sys2 : Option Nat) (size : Nat)
    (h1 : 0 < s.max_heap_size) (h2 : s.max_heap_size < s.current_allocated + size) :
    (∀ sys, internal_alloc s sys size = none) ∧
    gc_alloc s mem roots sys1 sys2 size =
      (match internal_alloc (gc_collect s mem roots).1 sys2 size with
       | some p => (some p, allocRecord (gc_collect s mem roots).1 p size,
           memset (gc_collect s mem roots).2 p 0 size)
       | none => (none, (gc_collect s mem roots).1, (gc_collect s mem roots).2)) := by
  have hden : ∀ sys, internal_alloc s sys size = none := by
    intro sys
    unfold internal_alloc
    rw [if_pos ⟨h1, h2⟩]
  refine ⟨hden, ?_⟩
  cases h3 : internal_alloc (gc_collect s mem roots).1 sys2 size with
  | some p => rw [gc_alloc_second (hden sys1) h3]
  | none => rw [gc_alloc_fail (hden sys1) h3]

/-- Witness for C5's amended theorem at a concrete over-cap request. -/
theorem cap_denial_no_underlying_alloc_witness :
    internal_alloc ⟨[(100, 8)], 8, 8, false⟩ (some 999) 1 = none :=
  (cap_denial_no_underlying_alloc ⟨[(100, 8)], 8, 8, false⟩ zeroMem []
    (some 200) (some 200) 1 (by decide) (by decide)).1 (some 999)

/-- C6: across any sequence of gc_alloc / gc_collect operations executed
while a nonzero cap is configured, the running total of tracked bytes
never exceeds the cap; the cap itself never changes, and every
intermediate point of the sequence is `runOps` of a prefix, so the
bound holds at every point. -/
theorem cap_never_exceeded (init : GCState × Mem) (ops : List GCOp)
    (hmax : 0 < init.1.max_heap_size)
    (hinit : init.1.current_allocated ≤ init.1.max_heap_size) :
    (runOps init ops).1.max_heap_size = init.1.max_heap_size ∧
    (runOps init ops).1.current_allocated ≤ init.1.max_heap_size := by
  have h := runOps_inv ops init hmax hinit
  exact ⟨h.1, h.1 ▸ h.2⟩

/-- Witness for C6 on a concrete operation sequence with cap 8 that
allocates, collects, and allocates up to the cap again. -/
theorem cap_never_exceeded_witness :
    (runOps (⟨[], 0, 8, false⟩, zeroMem)
      [GCOp.alloc 4 (some 100) none [], GCOp.alloc 3 (some 200) none [],
       GCOp.collect [], GCOp.alloc 8 (some 300) (some 310) []]).1.current_allocated ≤ 8 :=
  (cap_never_exceeded (⟨[], 0, 8, false⟩, zeroMem)
    [GCOp.alloc 4 (some 100) none [], GCOp.alloc 3 (some 200) none [],
     GCOp.collect [], GCOp.alloc 8 (some 300) (some 310) []]
    (by decide) (by decide)).2

/-- C7: when `gc_alloc` succeeds it hands back zero-initialized memory
and records exactly one entry `(address, size)` in the allocation table
of the state at the successful attempt (the initial state or the
once-collected state), increasing that state's running total by the
size; when the underlying allocation fails on both attempts, no entry
is inserted and state and memory are exactly those left by the
collection. -/
theorem gc_alloc_success_effects (s : GCState) (mem : Mem) (roots : List (Nat × Nat))
    (sys1 sys2 : Option Nat) (size : Nat) :
    (∀ p, (gc_alloc s mem roots sys1 sys2 size).1 = some p →
      (∀ i < size, (gc_alloc s mem roots sys1 sys2 size).2.2 (p + i) = 0) ∧
      ∃ b : GCState, (b = s ∨ b = (gc_collect s mem roots).1) ∧
        (gc_alloc s mem roots sys1 sys2 size).2.1.allocations = setKey b.allocations p size ∧
        lookupKey (gc_alloc s mem roots sys1 sys2 size).2.1.allocations p = some size ∧
        (∀ q, q ≠ p → lookupKey (gc_alloc s mem roots sys1 sys2 size).2.1.allocations q =
          lookupKey b.allocations q) ∧
        (gc_alloc s mem roots sys1 sys2 size).2.1.current_allocated =
          b.current_allocated + size) ∧
    ((gc_alloc s mem roots sys1 sys2 size).1 = none →
      (gc_alloc s mem roots sys1 sys2 size).2 = gc_collect s mem roots) := by
  cases h1 : internal_alloc s sys1 size with
  | some p0 =>
    rw [gc_alloc_first h1]
    constructor
    · intro p hp
      have hp2 : some p0 = some p := hp
      obtain rfl : p0 = p := by cases hp2; rfl
      refine ⟨?_, s, Or.inl rfl, rfl, ?_, ?_, rfl⟩
      · intro i hi
        exact memset_in mem 0 (Nat.le_add_right _ _) (Nat.add_lt_add_left hi _)
      · exact lookupKey_setKey_self s.allocations p0 size
      · exact fun q hq => lookupKey_setKey_ne s.allocations p0 size q hq
    · intro hnone
      have hn2 : some p0 = (none : Option Nat) := hnone
      cases hn2
  | none =>
    cases h2 : internal_alloc (gc_collect s mem roots).1 sys2 size with
    | some p0 =>
      rw [gc_alloc_second h1 h2]
      constructor
      · intro p hp
        have hp2 : some p0 = some p := hp
        obtain rfl : p0 = p := by cases hp2; rfl
        refine ⟨?_, (gc_collect s mem roots).1, Or.inr rfl, rfl, ?_, ?_, rfl⟩
        · intro i hi
          exact memset_in _ 0 (Nat.le_add_right _ _) (Nat.add_lt_add_left hi _)
        · exact lookupKey_setKey_self _ p0 size
        · exact fun q hq => lookupKey_setKey_ne _ p0 size q hq
      · intro hnone
        have hn2 : some p0 = (none : Option Nat) := hnone
        cases hn2
    | none =>
      rw [gc_alloc_fail h1 h2]
      refine ⟨?_, fun _ => rfl⟩
      intro p hp
      have hp2 : (none : Option Nat) = some p := hp
      cases hp2

/-- Witness for C7: a successful first-attempt allocation of 16 bytes
at 400 hands back zero-initialized memory over a previously nonzero
byte. -/
theorem gc_alloc_success_effects_witness :
    (gc_alloc ⟨[], 0, 0, false⟩ sevenMem [] (some 400) none 16).2.2 405 = 0 :=
  ((gc_alloc_success_effects ⟨[], 0, 0, false⟩ sevenMem [] (some 400) none 16).1
    400 (by decide)).1 5 (by decide)

end SimpleGC
